import Mathlib

/-!
Shallow embedding of `src/httpie/httpie.py`.

Python strings are modelled as `List Char`; `str.find` as an
`Option Nat`-valued first-occurrence search; Python `dict` and the
case-insensitive header dictionary as ordered association lists.
The embedding covers:

* the token classifier `KeyValueType.__call__` (lines 30-40);
* the request-assembly part of `main` (lines 126-149): header/data
  merging, the mixed-body-source usage error, and the JSON/form
  content-type negotiation;
* the transport boundary (the single `requests.request` call);
* the response-prettifying block of `main` (lines 186-192).
-/

set_option autoImplicit false

namespace Httpie

/-- Models Python `string.find(sep)` for a one-character separator:
`none` stands for `-1`, `some i` for the index of the first occurrence. -/
def strFind (sep : Char) : List Char → Option Nat
  | [] => none
  | x :: xs => if x = sep then some 0 else (strFind sep xs).map (· + 1)

/-- The `namedtuple KeyValue` of line 22. -/
structure KeyValue where
  key : List Char
  value : List Char
  sep : Char
deriving DecidableEq, Repr

/-- The argparse type object of line 25: it carries the candidate
separator characters (iterating a Python string yields its characters,
so both `':'` and `[':', '=']` denote lists of characters). -/
structure KeyValueType where
  separators : List Char

/-- The dict comprehension of lines 31-33: for each separator that occurs,
the pair (first-occurrence index, separator). -/
def foundEntries (separators : List Char) (s : List Char) : List (Nat × Char) :=
  separators.filterMap fun sep => (strFind sep s).map fun i => (i, sep)

/-- `min(found.keys())` of line 38 (`none` when the dict is empty). -/
def minKey : List (Nat × Char) → Option Nat
  | [] => none
  | p :: rest =>
    match minKey rest with
    | none => some p.1
    | some m => some (min p.1 m)

/-- Python dict lookup for the comprehension of line 31: when several
entries share a key, the one generated last wins. -/
def lookupLast (k : Nat) : List (Nat × Char) → Option Char
  | [] => none
  | p :: rest =>
    match lookupLast k rest with
    | some c => some c
    | none => if p.1 = k then some p.2 else none

/-- `string.split(sep, 1)` of line 39: split at the first occurrence of
`sep` (the no-occurrence fallback is unreachable at the call site). -/
def splitOnce (sep : Char) (s : List Char) : List Char × List Char :=
  match strFind sep s with
  | none => (s, [])
  | some i => (s.take i, s.drop (i + 1))

/-- `KeyValueType.__call__` (lines 30-40).  `Except.error` models the
`argparse.ArgumentTypeError` carrying the offending string. -/
def KeyValueType.call (t : KeyValueType) (string : List Char) :
    Except (List Char) KeyValue :=
  let found := foundEntries t.separators string
  match minKey found with
  | none => .error string
  | some i =>
    match lookupLast i found with
    | none => .error string
    | some sep =>
      let kv := splitOnce sep string
      .ok ⟨kv.1, kv.2, sep⟩

/-- The earliest index at which any of the candidate separators occurs. -/
def firstSepIdx (separators : List Char) : List Char → Option Nat
  | [] => none
  | x :: xs =>
    if x ∈ separators then some 0 else (firstSepIdx separators xs).map (· + 1)

/-! ### Basic facts about the classifier's building blocks -/

theorem strFind_eq_zero {sep x : Char} {xs : List Char} :
    strFind sep (x :: xs) = some 0 ↔ x = sep := by
  constructor
  · intro h
    by_contra hx
    rcases hf : strFind sep xs with _ | i <;>
      simp [strFind, if_neg hx, hf] at h
  · intro h
    simp [strFind, h]

theorem mem_foundEntries {separators s : List Char} {i : Nat} {c : Char} :
    (i, c) ∈ foundEntries separators s ↔ c ∈ separators ∧ strFind c s = some i := by
  simp only [foundEntries, List.mem_filterMap]
  constructor
  · rintro ⟨a, ha, hfa⟩
    rcases hfind : strFind a s with _ | j
    · simp [hfind] at hfa
    · simp only [hfind, Option.map_some', Option.some.injEq, Prod.mk.injEq] at hfa
      obtain ⟨hi, hc⟩ := hfa
      subst hi; subst hc
      exact ⟨ha, hfind⟩
  · rintro ⟨hc, hfind⟩
    exact ⟨c, hc, by simp [hfind]⟩

theorem minKey_eq_zero {l : List (Nat × Char)} {c : Char} (h : (0, c) ∈ l) :
    minKey l = some 0 := by
  induction l with
  | nil => cases h
  | cons p rest ih =>
    rcases List.mem_cons.mp h with h | h
    · cases hm : minKey rest <;> simp [minKey, ← h, hm]
    · simp [minKey, ih h]

theorem lookupLast_mem {l : List (Nat × Char)} {k : Nat} {c : Char}
    (h : lookupLast k l = some c) : (k, c) ∈ l := by
  induction l with
  | nil => simp [lookupLast] at h
  | cons p rest ih =>
    simp only [lookupLast] at h
    rcases hrest : lookupLast k rest with _ | c'
    · rw [hrest] at h
      by_cases hk : p.1 = k
      · rw [if_pos hk] at h
        obtain ⟨x, y⟩ := p
        injection h with h2
        simp only at hk h2
        subst hk; subst h2
        exact List.mem_cons_self _ _
      · rw [if_neg hk] at h
        cases h
    · rw [hrest] at h
      injection h with h2
      subst h2
      exact List.mem_cons_of_mem _ (ih hrest)

theorem lookupLast_none {l : List (Nat × Char)} {k : Nat}
    (h : lookupLast k l = none) : ∀ p ∈ l, p.1 ≠ k := by
  induction l with
  | nil => simp
  | cons p rest ih =>
    simp only [lookupLast] at h
    rcases hrest : lookupLast k rest with _ | c'
    · rw [hrest] at h
      intro q hq hk
      rcases List.mem_cons.mp hq with hq | hq
      · subst hq
        rw [if_pos hk] at h
        cases h
      · exact ih hrest q hq hk
    · rw [hrest] at h
      cases h

theorem foundEntries_nil (separators : List Char) :
    foundEntries separators [] = [] := by
  simp [foundEntries, strFind]

theorem foundEntries_cons_sep (c : Char) (cs : List Char) (s : List Char) :
    foundEntries (c :: cs) s =
      match strFind c s with
      | none => foundEntries cs s
      | some i => (i, c) :: foundEntries cs s := by
  rcases hf : strFind c s with _ | i <;>
    simp [foundEntries, List.filterMap_cons, hf]

theorem foundEntries_cons_notMem {separators : List Char} {x : Char}
    {xs : List Char} (hx : x ∉ separators) :
    foundEntries separators (x :: xs) =
      (foundEntries separators xs).map fun p => (p.1 + 1, p.2) := by
  induction separators with
  | nil => rfl
  | cons c cs ih =>
    have hcx : ¬ x = c := fun h => hx (h ▸ List.mem_cons_self c cs)
    have hxcs : x ∉ cs := fun h => hx (List.mem_cons_of_mem _ h)
    have hstep : strFind c (x :: xs) = (strFind c xs).map (· + 1) := by
      simp [strFind, if_neg hcx]
    rw [foundEntries_cons_sep, foundEntries_cons_sep, hstep]
    rcases hf : strFind c xs with _ | i
    · simp [hf, ih hxcs]
    · simp [hf, ih hxcs]

theorem minKey_map_succ (l : List (Nat × Char)) :
    minKey (l.map fun p => (p.1 + 1, p.2)) = (minKey l).map (· + 1) := by
  induction l with
  | nil => rfl
  | cons p rest ih =>
    rcases hm : minKey rest with _ | m <;>
      simp [minKey, ih, hm, Nat.succ_min_succ]

theorem lookupLast_map_succ (l : List (Nat × Char)) (k : Nat) :
    lookupLast (k + 1) (l.map fun p => (p.1 + 1, p.2)) = lookupLast k l := by
  induction l with
  | nil => rfl
  | cons p rest ih =>
    rcases hr : lookupLast k rest with _ | c <;>
      simp [lookupLast, ih, hr]

theorem splitOnce_cons_ne {sep x : Char} (xs : List Char) (h : ¬ x = sep) :
    splitOnce sep (x :: xs) =
      (x :: (splitOnce sep xs).1, (splitOnce sep xs).2) := by
  rcases hf : strFind sep xs with _ | i <;>
    simp [splitOnce, strFind, if_neg h, hf]

/-- Step lemma: a string whose first character is one of the candidate
separators classifies with empty key. -/
theorem call_cons_mem {separators : List Char} {x : Char} {xs : List Char}
    (hx : x ∈ separators) :
    KeyValueType.call ⟨separators⟩ (x :: xs) = .ok ⟨[], xs, x⟩ := by
  have hfind : strFind x (x :: xs) = some 0 := strFind_eq_zero.mpr rfl
  have h0 : (0, x) ∈ foundEntries separators (x :: xs) :=
    mem_foundEntries.mpr ⟨hx, hfind⟩
  have hmin : minKey (foundEntries separators (x :: xs)) = some 0 :=
    minKey_eq_zero h0
  have hlook : lookupLast 0 (foundEntries separators (x :: xs)) = some x := by
    rcases hl : lookupLast 0 (foundEntries separators (x :: xs)) with _ | c
    · exact absurd rfl (lookupLast_none hl (0, x) h0)
    · have hmem := lookupLast_mem hl
      have hxc : x = c := strFind_eq_zero.mp (mem_foundEntries.mp hmem).2
      rw [hxc]
  simp only [KeyValueType.call, hmin, hlook, splitOnce, hfind]
  rfl

/-- Step lemma: a leading non-separator character is carried into the key. -/
theorem call_cons_notMem {separators : List Char} {x : Char} {xs : List Char}
    (hx : x ∉ separators) :
    KeyValueType.call ⟨separators⟩ (x :: xs) =
      match KeyValueType.call ⟨separators⟩ xs with
      | .error _ => .error (x :: xs)
      | .ok kv => .ok ⟨x :: kv.key, kv.value, kv.sep⟩ := by
  simp only [KeyValueType.call, foundEntries_cons_notMem hx, minKey_map_succ]
  rcases hmin : minKey (foundEntries separators xs) with _ | i
  · simp
  · simp only [Option.map_some']
    rw [lookupLast_map_succ]
    rcases hlook : lookupLast i (foundEntries separators xs) with _ | c
    · simp
    · have hc : c ∈ separators := (mem_foundEntries.mp (lookupLast_mem hlook)).1
      have hcx : ¬ x = c := fun h => hx (h ▸ hc)
      simp [splitOnce_cons_ne _ hcx]

theorem firstSepIdx_none_iff {separators s : List Char} :
    firstSepIdx separators s = none ↔ ∀ c ∈ separators, ¬ c ∈ s := by
  induction s with
  | nil => simp [firstSepIdx]
  | cons x xs ih =>
    by_cases hx : x ∈ separators
    · constructor
      · intro h
        simp [firstSepIdx, hx] at h
      · intro h
        exact absurd (List.mem_cons_self x xs) (h x hx)
    · simp only [firstSepIdx, if_neg hx, Option.map_eq_none', ih]
      constructor
      · intro h c hc hmem
        rcases List.mem_cons.mp hmem with rfl | hmem
        · exact hx hc
        · exact h c hc hmem
      · intro h c hc hmem
        exact h c hc (List.mem_cons_of_mem _ hmem)

theorem firstSepIdx_some {separators s : List Char} {i : Nat}
    (h : firstSepIdx separators s = some i) :
    ∃ c, s.get? i = some c ∧ c ∈ separators ∧
      ∀ j, j < i → ∀ d, s.get? j = some d → d ∉ separators := by
  induction s generalizing i with
  | nil => cases h
  | cons x xs ih =>
    by_cases hx : x ∈ separators
    · simp only [firstSepIdx, if_pos hx, Option.some.injEq] at h
      subst h
      exact ⟨x, rfl, hx, fun j hj d _ => absurd hj (Nat.not_lt_zero j)⟩
    · simp only [firstSepIdx, if_neg hx] at h
      rcases hf : firstSepIdx separators xs with _ | j
      · rw [hf] at h; cases h
      · rw [hf] at h
        simp only [Option.map_some', Option.some.injEq] at h
        subst h
        obtain ⟨c, hc1, hc2, hc3⟩ := ih hf
        refine ⟨c, by simpa using hc1, hc2, ?_⟩
        intro k hk d hd
        cases k with
        | zero =>
          simp only [List.get?_cons_zero, Option.some.injEq] at hd
          subst hd
          exact hx
        | succ k' =>
          exact hc3 k' (Nat.lt_of_succ_lt_succ hk) d (by simpa using hd)

/-- Master lemma: when no candidate separator occurs, `__call__` raises,
carrying the offending string. -/
theorem call_error_of_none {separators s : List Char}
    (h : firstSepIdx separators s = none) :
    KeyValueType.call ⟨separators⟩ s = .error s := by
  induction s with
  | nil => simp [KeyValueType.call, foundEntries_nil, minKey]
  | cons x xs ih =>
    by_cases hx : x ∈ separators
    · simp [firstSepIdx, hx] at h
    · simp only [firstSepIdx, if_neg hx] at h
      have h2 : firstSepIdx separators xs = none := by
        rcases hf : firstSepIdx separators xs with _ | i
        · rfl
        · rw [hf] at h; cases h
      rw [call_cons_notMem hx, ih h2]

/-- Master lemma: `__call__` splits at the earliest separator occurrence. -/
theorem call_of_firstSepIdx {separators s : List Char} {i : Nat} {c : Char}
    (h : firstSepIdx separators s = some i) (hc : s.get? i = some c) :
    KeyValueType.call ⟨separators⟩ s = .ok ⟨s.take i, s.drop (i + 1), c⟩ := by
  induction s generalizing i with
  | nil => cases h
  | cons x xs ih =>
    by_cases hx : x ∈ separators
    · simp only [firstSepIdx, if_pos hx, Option.some.injEq] at h
      subst h
      simp only [List.get?_cons_zero, Option.some.injEq] at hc
      subst hc
      simpa using call_cons_mem hx
    · simp only [firstSepIdx, if_neg hx] at h
      rcases hf : firstSepIdx separators xs with _ | j
      · rw [hf] at h; cases h
      · rw [hf] at h
        simp only [Option.map_some', Option.some.injEq] at h
        subst h
        have hc' : xs.get? j = some c := by simpa using hc
        rw [call_cons_notMem hx, ih hf hc']
        simp

/-- C2.  For every string in which at least one candidate separator
occurs, the Token Classifier splits at the earliest position at which any
candidate separator occurs: there is a position `i` holding a candidate
separator `c`, no earlier position holds any candidate separator, and
`KeyValueType.__call__` returns the Token whose key is the substring
before `i`, whose value is the substring after `i` kept verbatim, and
whose separator is `c`, the character at position `i`. -/
theorem classifier_earliest_split (separators s : List Char)
    (h : ∃ c ∈ separators, c ∈ s) :
    ∃ i c, s.get? i = some c ∧ c ∈ separators ∧
      (∀ j, j < i → ∀ d, s.get? j = some d → d ∉ separators) ∧
      KeyValueType.call ⟨separators⟩ s = .ok ⟨s.take i, s.drop (i + 1), c⟩ := by
  rcases hf : firstSepIdx separators s with _ | i
  · obtain ⟨c, hc, hcs⟩ := h
    exact absurd hcs (firstSepIdx_none_iff.mp hf c hc)
  · obtain ⟨c, hc1, hc2, hc3⟩ := firstSepIdx_some hf
    exact ⟨i, c, hc1, hc2, hc3, call_of_firstSepIdx hf hc1⟩

/-- Witness for C2 at `"a:b=c"` with separators `[':', '=']`: the split
happens at the colon (position 1), giving key `"a"` and value `"b=c"`. -/
theorem classifier_earliest_split_witness :
    ∃ i c, "a:b=c".data.get? i = some c ∧ c ∈ [':', '='] ∧
      (∀ j, j < i → ∀ d, "a:b=c".data.get? j = some d → d ∉ [':', '=']) ∧
      KeyValueType.call ⟨[':', '=']⟩ "a:b=c".data =
        .ok ⟨"a:b=c".data.take i, "a:b=c".data.drop (i + 1), c⟩ :=
  classifier_earliest_split [':', '='] "a:b=c".data
    ⟨':', by decide, by decide⟩

/-- C8.  The Token Classifier fails, with an error carrying the offending
string, exactly when no candidate separator occurs anywhere in the input;
whenever some candidate separator occurs it returns a Token without
error. -/
theorem classifier_invalid_iff (separators s : List Char) :
    (KeyValueType.call ⟨separators⟩ s = .error s ↔
      ∀ c ∈ separators, ¬ c ∈ s) ∧
    ((∃ c ∈ separators, c ∈ s) →
      ∃ kv, KeyValueType.call ⟨separators⟩ s = .ok kv) := by
  constructor
  · constructor
    · intro h c hc hcs
      rcases hf : firstSepIdx separators s with _ | i
      · exact firstSepIdx_none_iff.mp hf c hc hcs
      · obtain ⟨d, hd1, _, _⟩ := firstSepIdx_some hf
        rw [call_of_firstSepIdx hf hd1] at h
        cases h
    · intro h
      exact call_error_of_none (firstSepIdx_none_iff.mpr h)
  · rintro ⟨c, hc, hcs⟩
    rcases hf : firstSepIdx separators s with _ | i
    · exact absurd hcs (firstSepIdx_none_iff.mp hf c hc)
    · obtain ⟨d, hd1, _, _⟩ := firstSepIdx_some hf
      exact ⟨_, call_of_firstSepIdx hf hd1⟩

/-- Witness for C8: `"ab"` holds neither `':'` nor `'='`, so the
classifier rejects it with the offending string, while `"a=b"` holds a
separator and is accepted. -/
theorem classifier_invalid_iff_witness :
    KeyValueType.call ⟨[':', '=']⟩ "ab".data = .error "ab".data ∧
    (∃ kv, KeyValueType.call ⟨[':', '=']⟩ "a=b".data = .ok kv) :=
  ⟨(classifier_invalid_iff [':', '='] "ab".data).1.mpr (by decide),
   (classifier_invalid_iff [':', '='] "a=b".data).2 ⟨'=', by decide, by decide⟩⟩

/-- C10.  A string whose first character is a candidate separator
classifies successfully into a Token with empty key, the rest of the
string as value, and that leading character as separator; empty keys are
never rejected. -/
theorem classifier_empty_key (separators : List Char) (c : Char)
    (rest : List Char) (hc : c ∈ separators) :
    KeyValueType.call ⟨separators⟩ (c :: rest) = .ok ⟨[], rest, c⟩ :=
  call_cons_mem hc

/-- Witness for C10 at `":value"`: key is empty, value is `"value"`. -/
theorem classifier_empty_key_witness :
    KeyValueType.call ⟨[':', '=']⟩ ":value".data =
      .ok ⟨[], "value".data, ':'⟩ :=
  classifier_empty_key [':', '='] ':' "value".data (by decide)

/-! ### The request-assembly part of `main` (lines 116-149) -/

/-- Lowercasing, modelling Python `str.lower()` on header names. -/
def lowerL (s : List Char) : List Char := s.map Char.toLower

/-- Header maps are ordered association lists of header name/value. -/
abbrev Headers := List (List Char × List Char)

/-- Modelled from the spec: `requests.structures.CaseInsensitiveDict`
(an external collaborator, not under `src/`).  Per §3 of the spec it is
an ordered map with case-insensitive key comparison, the first-inserted
casing preserved for display, and a later insertion under an equivalent
key overwriting the earlier value. -/
def ciSet (hs : Headers) (k v : List Char) : Headers :=
  if hs.any fun p => lowerL p.1 == lowerL k then
    hs.map fun p => if lowerL p.1 == lowerL k then (p.1, v) else p
  else
    hs ++ [(k, v)]

/-- Case-insensitive `key in headers` (line 146/148 membership test). -/
def ciContains (hs : Headers) (k : List Char) : Bool :=
  hs.any fun p => lowerL p.1 == lowerL k

/-- Case-insensitive header lookup. -/
def ciGet (hs : Headers) (k : List Char) : Option (List Char) :=
  (hs.find? fun p => lowerL p.1 == lowerL k).map Prod.snd

/-- Number of entries of a header map whose name compares
case-insensitively equal to `k`. -/
def countCI (hs : Headers) (k : List Char) : Nat :=
  (hs.filter fun p => lowerL p.1 == lowerL k).length

/-- Plain ordered dict update, modelling `data[key] = value` on the Data
Map: an existing key keeps its position and gets the new value, a new key
is appended. -/
def dictSet (d : Headers) (k v : List Char) : Headers :=
  if d.any fun p => p.1 == k then
    d.map fun p => if p.1 == k then (p.1, v) else p
  else
    d ++ [(k, v)]

/-- JSON string escaping, modelling the escapes `json.dumps` applies to
the plain-string keys and values of the Data Map. -/
def jsonEscapeChar (c : Char) : List Char :=
  if c = '"' then ['\\', '"']
  else if c = '\\' then ['\\', '\\']
  else if c = '\n' then ['\\', 'n']
  else if c = '\t' then ['\\', 't']
  else if c = '\r' then ['\\', 'r']
  else [c]

def jsonString (s : List Char) : List Char :=
  '"' :: (s.map jsonEscapeChar).flatten ++ ['"']

def joinCommaSep : List (List Char) → List Char
  | [] => []
  | [x] => x
  | x :: xs => x ++ ',' :: ' ' :: joinCommaSep xs

/-- Modelled from the spec / Python stdlib: `json.dumps` (line 145) on a
Data Map whose keys and values are strings, with the default
`", "` / `": "` separators.  `jsonDumps [] = "{}"`. -/
def jsonDumps (d : Headers) : List Char :=
  '{' :: joinCommaSep (d.map fun p =>
    jsonString p.1 ++ ':' :: ' ' :: jsonString p.2) ++ ['}']

/-- `SEP_COMMON` (line 15). -/
def SEP_COMMON : Char := ':'

/-- `SEP_DATA` (line 16). -/
def SEP_DATA : Char := '='

/-- `TYPE_FORM` (line 17). -/
def TYPE_FORM : List Char :=
  "application/x-www-form-urlencoded; charset=utf-8".data

/-- `TYPE_JSON` (line 18). -/
def TYPE_JSON : List Char := "application/json; charset=utf-8".data

/-- Modelled from the spec: the package `__version__` string (imported at
line 10 from outside `src/`); its exact value is immaterial to every
claim. -/
def version : List Char := "0.1.4".data

/-- `DEFAULT_UA` (line 14). -/
def DEFAULT_UA : List Char := "HTTPie/".data ++ version

def userAgentKey : List Char := "User-Agent".data

def contentTypeKey : List Char := "Content-Type".data

/-- The flags of `args` read by the assembly fragment, plus the
classified positional items. -/
structure Args where
  json : Bool
  form : Bool
  items : List KeyValue
deriving Repr

/-- The usage error of lines 134-135 (`parser.error`), the spec's
`MixedBodySourceError`. -/
inductive UsageError where
  | mixedBodySource
deriving DecidableEq, Repr

/-- The request body: either the Data Map (a Python dict, later passed
form-encoded to the transport) or a string (raw piped bytes, or the
output of `json.dumps`). -/
inductive Body where
  | form (entries : Headers)
  | text (s : List Char)
deriving DecidableEq, Repr

/-- Python truthiness of the `data` variable at lines 143 and 146: a dict
is truthy when non-empty, a string when non-empty. -/
def Body.truthy : Body → Bool
  | .form d => !d.isEmpty
  | .text s => !s.isEmpty

/-- Headers and body of the assembled request. -/
structure Assembled where
  headers : Headers
  body : Body
deriving DecidableEq, Repr

/-- The item loop of lines 129-137: header tokens go to the header map;
data tokens go to the Data Map, but raise the mixed-body-source usage
error when stdin is not a tty. -/
def processItems (stdin_isatty : Bool) :
    List KeyValue → Headers → Headers →
    Except UsageError (Headers × Headers)
  | [], headers, data => .ok (headers, data)
  | item :: rest, headers, data =>
    if item.sep = SEP_COMMON then
      processItems stdin_isatty rest (ciSet headers item.key item.value) data
    else if stdin_isatty then
      processItems stdin_isatty rest headers (dictSet data item.key item.value)
    else
      .error .mixedBodySource

/-- Lines 126-149 of `main`: seed the header map with the default
`User-Agent`, merge the classified items, replace the Data Map with the
piped input when stdin is not a tty, then run the JSON/form content-type
negotiation.  When stdin is a tty the `json.dumps(data)` of line 145
serializes the Data Map (in that branch `data` is still the dict built by
the loop). -/
def main_assemble (args : Args) (stdin_isatty : Bool)
    (stdin_content : List Char) : Except UsageError Assembled :=
  match processItems stdin_isatty args.items [(userAgentKey, DEFAULT_UA)] [] with
  | .error e => .error e
  | .ok (headers, dataMap) =>
    let data : Body := if stdin_isatty then .form dataMap else .text stdin_content
    if args.json || (!args.form && data.truthy) then
      let data : Body :=
        if stdin_isatty then .text (jsonDumps dataMap) else data
      let headers :=
        if !ciContains headers contentTypeKey && (data.truthy || args.json) then
          ciSet headers contentTypeKey TYPE_JSON
        else headers
      .ok ⟨headers, data⟩
    else
      let headers :=
        if !ciContains headers contentTypeKey then
          ciSet headers contentTypeKey TYPE_FORM
        else headers
      .ok ⟨headers, data⟩

/-- The transport boundary: `.sent` is the single `requests.request` call
of lines 153-164, performed exactly when assembly succeeded;
`.usageError` means the process aborted before any network call. -/
inductive Outcome where
  | usageError (e : UsageError)
  | sent (request : Assembled)
deriving DecidableEq, Repr

def main_send (args : Args) (stdin_isatty : Bool)
    (stdin_content : List Char) : Outcome :=
  match main_assemble args stdin_isatty stdin_content with
  | .error e => .usageError e
  | .ok a => .sent a

/-! ### Facts about the header map and the item loop -/

/-- The effect of one loop iteration on the header map. -/
def stepH (h : Headers) (it : KeyValue) : Headers :=
  if it.sep = SEP_COMMON then ciSet h it.key it.value else h

/-- The effect of one loop iteration on the Data Map (when stdin is a
tty). -/
def stepD (d : Headers) (it : KeyValue) : Headers :=
  if it.sep = SEP_COMMON then d else dictSet d it.key it.value

/-- The header map seeded at lines 126-127. -/
def initialHeaders : Headers := [(userAgentKey, DEFAULT_UA)]

/-- The header map after the item loop. -/
def headersOf (items : List KeyValue) : Headers :=
  items.foldl stepH initialHeaders

/-- The Data Map after the item loop (stdin a tty). -/
def dataOf (items : List KeyValue) : Headers :=
  items.foldl stepD []

theorem processItems_isatty (items : List KeyValue) (hs d : Headers) :
    processItems true items hs d =
      .ok (items.foldl stepH hs, items.foldl stepD d) := by
  induction items generalizing hs d with
  | nil => rfl
  | cons it rest ih =>
    by_cases hsep : it.sep = SEP_COMMON <;>
      simp [processItems, stepH, stepD, hsep, ih]

theorem processItems_ok_headers {b : Bool} {items : List KeyValue}
    {hs d hs' d' : Headers}
    (h : processItems b items hs d = .ok (hs', d')) :
    hs' = items.foldl stepH hs := by
  induction items generalizing hs d with
  | nil =>
    simp only [processItems, Except.ok.injEq, Prod.mk.injEq] at h
    simp [h.1]
  | cons it rest ih =>
    simp only [processItems] at h
    by_cases hsep : it.sep = SEP_COMMON
    · rw [if_pos hsep] at h
      simpa [stepH, hsep] using ih h
    · rw [if_neg hsep] at h
      by_cases hb : b = true
      · subst hb
        rw [if_pos rfl] at h
        simpa [stepH, hsep] using ih h
      · rw [Bool.not_eq_true] at hb
        subst hb
        simp at h

theorem ciGet_cons_pos {p : List Char × List Char} {l : Headers}
    {k : List Char} (h : lowerL p.1 = lowerL k) :
    ciGet (p :: l) k = some p.2 := by
  unfold ciGet
  rw [List.find?_cons_of_pos _ (by simpa using h)]
  rfl

theorem ciGet_cons_neg {p : List Char × List Char} {l : Headers}
    {k : List Char} (h : ¬ lowerL p.1 = lowerL k) :
    ciGet (p :: l) k = ciGet l k := by
  unfold ciGet
  rw [List.find?_cons_of_neg _ (by simpa using h)]

theorem ciGet_map_replace {hs : Headers} {k v k' : List Char}
    (hk : lowerL k' = lowerL k)
    (hany : (hs.any fun p => lowerL p.1 == lowerL k) = true) :
    ciGet (hs.map fun p => if lowerL p.1 == lowerL k then (p.1, v) else p) k' =
      some v := by
  induction hs with
  | nil => cases hany
  | cons p rest ih =>
    rw [List.map_cons]
    by_cases hp : lowerL p.1 = lowerL k
    · rw [if_pos (by simpa using hp)]
      exact ciGet_cons_pos (hp.trans hk.symm)
    · rw [if_neg (by simpa using hp), ciGet_cons_neg (fun h => hp (h.trans hk))]
      apply ih
      simpa [List.any_cons, hp] using hany

theorem ciGet_append_self {hs : Headers} {k v k' : List Char}
    (hk : lowerL k' = lowerL k)
    (hnone : (hs.any fun p => lowerL p.1 == lowerL k) = false) :
    ciGet (hs ++ [(k, v)]) k' = some v := by
  induction hs with
  | nil =>
    simpa using ciGet_cons_pos (l := []) (p := (k, v)) hk.symm
  | cons p rest ih =>
    have hp : ¬ lowerL p.1 = lowerL k := by
      intro hp
      simp [List.any_cons, hp] at hnone
    rw [List.cons_append, ciGet_cons_neg (fun h => hp (h.trans hk))]
    apply ih
    simpa [List.any_cons, hp] using hnone

theorem ciGet_map_replace_other {hs : Headers} {k v k' : List Char}
    (hk : ¬ lowerL k' = lowerL k) :
    ciGet (hs.map fun p => if lowerL p.1 == lowerL k then (p.1, v) else p) k' =
      ciGet hs k' := by
  induction hs with
  | nil => rfl
  | cons p rest ih =>
    rw [List.map_cons]
    by_cases hp : lowerL p.1 = lowerL k
    · have hp' : ¬ lowerL p.1 = lowerL k' := fun h => hk (h.symm.trans hp)
      rw [if_pos (by simpa using hp), ciGet_cons_neg (p := (p.1, v)) hp',
        ciGet_cons_neg hp']
      exact ih
    · rw [if_neg (by simpa using hp)]
      by_cases hp' : lowerL p.1 = lowerL k'
      · rw [ciGet_cons_pos hp', ciGet_cons_pos hp']
      · rw [ciGet_cons_neg hp', ciGet_cons_neg hp']
        exact ih

theorem ciGet_append_other {hs : Headers} {k v k' : List Char}
    (hk : ¬ lowerL k' = lowerL k) :
    ciGet (hs ++ [(k, v)]) k' = ciGet hs k' := by
  induction hs with
  | nil =>
    have hkk : ¬ lowerL ((k, v) : List Char × List Char).1 = lowerL k' :=
      fun h => hk h.symm
    simpa using ciGet_cons_neg (l := []) hkk
  | cons p rest ih =>
    by_cases hp' : lowerL p.1 = lowerL k'
    · rw [List.cons_append, ciGet_cons_pos hp', ciGet_cons_pos hp']
    · rw [List.cons_append, ciGet_cons_neg hp', ciGet_cons_neg hp']
      exact ih

/-- A later insertion under a case-insensitively equal key wins the
lookup. -/
theorem ciGet_ciSet_self {hs : Headers} {k v k' : List Char}
    (hk : lowerL k' = lowerL k) : ciGet (ciSet hs k v) k' = some v := by
  unfold ciSet
  by_cases hany : (hs.any fun p => lowerL p.1 == lowerL k) = true
  · rw [if_pos hany]
    exact ciGet_map_replace hk hany
  · rw [if_neg hany]
    exact ciGet_append_self hk (by simpa using hany)

/-- Insertion under a different (case-insensitive) key leaves a lookup
unchanged. -/
theorem ciGet_ciSet_other {hs : Headers} {k v k' : List Char}
    (hk : ¬ lowerL k' = lowerL k) : ciGet (ciSet hs k v) k' = ciGet hs k' := by
  unfold ciSet
  by_cases hany : (hs.any fun p => lowerL p.1 == lowerL k) = true
  · rw [if_pos hany]
    exact ciGet_map_replace_other hk
  · rw [if_neg hany]
    exact ciGet_append_other hk

theorem countCI_cons_pos {p : List Char × List Char} {l : Headers}
    {k : List Char} (h : lowerL p.1 = lowerL k) :
    countCI (p :: l) k = countCI l k + 1 := by
  simp [countCI, List.filter_cons, h]

theorem countCI_cons_neg {p : List Char × List Char} {l : Headers}
    {k : List Char} (h : ¬ lowerL p.1 = lowerL k) :
    countCI (p :: l) k = countCI l k := by
  simp [countCI, List.filter_cons, h]

theorem countCI_map_replace (hs : Headers) (k v kk : List Char) :
    countCI (hs.map fun p => if lowerL p.1 == lowerL k then (p.1, v) else p) kk =
      countCI hs kk := by
  induction hs with
  | nil => rfl
  | cons p rest ih =>
    rw [List.map_cons]
    by_cases hp : lowerL p.1 = lowerL k
    · rw [if_pos (by simpa using hp)]
      by_cases hpk : lowerL p.1 = lowerL kk
      · rw [countCI_cons_pos (p := (p.1, v)) hpk, countCI_cons_pos hpk, ih]
      · rw [countCI_cons_neg (p := (p.1, v)) hpk, countCI_cons_neg hpk, ih]
    · rw [if_neg (by simpa using hp)]
      by_cases hpk : lowerL p.1 = lowerL kk
      · rw [countCI_cons_pos hpk, countCI_cons_pos hpk, ih]
      · rw [countCI_cons_neg hpk, countCI_cons_neg hpk, ih]

theorem countCI_append_other {hs : Headers} {k v key : List Char}
    (hk : ¬ lowerL k = lowerL key) :
    countCI (hs ++ [(k, v)]) key = countCI hs key := by
  induction hs with
  | nil => rw [List.nil_append, countCI_cons_neg (l := []) hk]
  | cons p rest ih =>
    by_cases hpk : lowerL p.1 = lowerL key
    · rw [List.cons_append, countCI_cons_pos hpk, countCI_cons_pos hpk, ih]
    · rw [List.cons_append, countCI_cons_neg hpk, countCI_cons_neg hpk]
      exact ih

theorem any_eq_false_countCI {hs : Headers} {k : List Char}
    (h : (hs.any fun p => lowerL p.1 == lowerL k) = false) :
    countCI hs k = 0 := by
  induction hs with
  | nil => rfl
  | cons p rest ih =>
    have hp : ¬ lowerL p.1 = lowerL k := by
      intro hp
      simp [List.any_cons, hp] at h
    rw [countCI_cons_neg hp]
    exact ih (by simpa [List.any_cons, hp] using h)

theorem countCI_congr {hs : Headers} {k k' : List Char}
    (h : lowerL k = lowerL k') : countCI hs k = countCI hs k' := by
  simp [countCI, h]

/-- Inserting into a header map that carries exactly one entry for a name
keeps exactly one entry for that name. -/
theorem countCI_ciSet_preserve {hs : Headers} {k v key : List Char}
    (h : countCI hs key = 1) : countCI (ciSet hs k v) key = 1 := by
  unfold ciSet
  by_cases hany : (hs.any fun p => lowerL p.1 == lowerL k) = true
  · rw [if_pos hany, countCI_map_replace]
    exact h
  · rw [if_neg hany]
    have h0 : countCI hs k = 0 := any_eq_false_countCI (by simpa using hany)
    by_cases hk : lowerL k = lowerL key
    · rw [countCI_congr hk] at h0
      omega
    · rw [countCI_append_other hk]
      exact h

theorem countCI_foldl_stepH {items : List KeyValue} {hs : Headers}
    {k : List Char} (h : countCI hs k = 1) :
    countCI (items.foldl stepH hs) k = 1 := by
  induction items generalizing hs with
  | nil => exact h
  | cons it rest ih =>
    rw [List.foldl_cons]
    apply ih
    unfold stepH
    by_cases hsep : it.sep = SEP_COMMON
    · rw [if_pos hsep]
      exact countCI_ciSet_preserve h
    · rw [if_neg hsep]
      exact h

/-- The case-insensitive lookup after the item loop: the last header
token whose name matches wins; with no such token the seed value is
kept. -/
theorem ciGet_foldl_stepH (items : List KeyValue) (hs : Headers)
    (k : List Char) :
    ciGet (items.foldl stepH hs) k =
      match items.reverse.find? (fun it =>
          it.sep == SEP_COMMON && lowerL it.key == lowerL k) with
      | some it => some it.value
      | none => ciGet hs k := by
  induction items generalizing hs with
  | nil => rfl
  | cons it rest ih =>
    rw [List.foldl_cons, ih, List.reverse_cons, List.find?_append]
    rcases hfr : rest.reverse.find? (fun it =>
        it.sep == SEP_COMMON && lowerL it.key == lowerL k) with _ | it'
    · rw [hfr]
      simp only [Option.none_or]
      by_cases hsep : it.sep = SEP_COMMON
      · by_cases hkey : lowerL it.key = lowerL k
        · rw [List.find?_cons_of_pos _ (by simp [hsep, hkey])]
          unfold stepH
          rw [if_pos hsep]
          exact ciGet_ciSet_self hkey.symm
        · rw [List.find?_cons_of_neg _ (by simp [hsep, hkey]), List.find?_nil]
          unfold stepH
          rw [if_pos hsep]
          exact ciGet_ciSet_other (fun h => hkey h.symm)
      · rw [List.find?_cons_of_neg _ (by simp [hsep]), List.find?_nil]
        unfold stepH
        rw [if_neg hsep]
    · rw [hfr]
      simp only [Option.or_some]

theorem ciContains_of_ciGet {hs : Headers} {k v : List Char}
    (h : ciGet hs k = some v) : ciContains hs k = true := by
  unfold ciContains
  unfold ciGet at h
  rcases hf : hs.find? (fun p => lowerL p.1 == lowerL k) with _ | p
  · rw [hf] at h; cases h
  · have hp := List.find?_some hf
    exact List.any_eq_true.mpr ⟨p, List.mem_of_find?_eq_some hf, hp⟩

theorem jsonDumps_isEmpty (d : Headers) : (jsonDumps d).isEmpty = false := rfl

theorem headersOf_eq (items : List KeyValue) :
    items.foldl stepH [(userAgentKey, DEFAULT_UA)] = headersOf items := rfl

theorem dataOf_eq (items : List KeyValue) :
    items.foldl stepD [] = dataOf items := rfl

/-- Characterization of lines 126-149 when stdin is a tty: assembly never
fails, the Data Map feeds the decision table, and the Content-Type is
assigned only when absent. -/
theorem main_assemble_isatty (json form : Bool) (items : List KeyValue)
    (sc : List Char) :
    main_assemble ⟨json, form, items⟩ true sc =
      (if json || (!form && !(dataOf items).isEmpty) then
        .ok ⟨if !ciContains (headersOf items) contentTypeKey then
               ciSet (headersOf items) contentTypeKey TYPE_JSON
             else headersOf items,
             .text (jsonDumps (dataOf items))⟩
      else
        .ok ⟨if !ciContains (headersOf items) contentTypeKey then
               ciSet (headersOf items) contentTypeKey TYPE_FORM
             else headersOf items,
             .form (dataOf items)⟩) := by
  unfold main_assemble
  rw [processItems_isatty]
  by_cases hcond : (json || (!form && !(dataOf items).isEmpty)) = true <;>
    simp [headersOf_eq, dataOf_eq, hcond, Body.truthy, jsonDumps_isEmpty]

/-- C1.  With interactive stdin, no user-supplied Content-Type and the
Data Map built from the data tokens: if `--json` is set, or `--form` is
not set and the Data Map is non-empty, the body is the JSON serialization
of the Data Map and Content-Type becomes `application/json;
charset=utf-8`; otherwise the body is the (form-encoded) Data Map and
Content-Type becomes `application/x-www-form-urlencoded; charset=utf-8`.
-/
theorem content_type_decision_table (json form : Bool)
    (items : List KeyValue) (sc : List Char)
    (hct : ciContains (headersOf items) contentTypeKey = false) :
    ∃ hs body,
      main_assemble ⟨json, form, items⟩ true sc = .ok ⟨hs, body⟩ ∧
      (if json || (!form && !(dataOf items).isEmpty) then
        body = .text (jsonDumps (dataOf items)) ∧
          ciGet hs contentTypeKey = some TYPE_JSON
      else
        body = .form (dataOf items) ∧
          ciGet hs contentTypeKey = some TYPE_FORM) := by
  rw [main_assemble_isatty]
  by_cases hcond : (json || (!form && !(dataOf items).isEmpty)) = true
  · rw [if_pos hcond, if_pos (by simp [hct])]
    refine ⟨_, _, rfl, ?_⟩
    rw [if_pos hcond]
    exact ⟨rfl, ciGet_ciSet_self rfl⟩
  · rw [if_neg hcond, if_pos (by simp [hct])]
    refine ⟨_, _, rfl, ?_⟩
    rw [if_neg hcond]
    exact ⟨rfl, ciGet_ciSet_self rfl⟩

/-- Witness for C1 in the quadrant "neither flag, Data Map non-empty":
one `name=joe` token yields a JSON body and the JSON content type. -/
theorem content_type_decision_table_witness :
    ∃ hs body,
      main_assemble ⟨false, false, [⟨"name".data, "joe".data, '='⟩]⟩ true [] =
        .ok ⟨hs, body⟩ ∧
      (if false || (!false && !(dataOf [⟨"name".data, "joe".data, '='⟩]).isEmpty)
      then
        body = .text (jsonDumps (dataOf [⟨"name".data, "joe".data, '='⟩])) ∧
          ciGet hs contentTypeKey = some TYPE_JSON
      else
        body = .form (dataOf [⟨"name".data, "joe".data, '='⟩]) ∧
          ciGet hs contentTypeKey = some TYPE_FORM) :=
  content_type_decision_table false false [⟨"name".data, "joe".data, '='⟩] []
    (by decide)

/-- C6 counterexample: with `--json`, zero items, interactive stdin and
no user Content-Type, the assembled body is the two-character JSON text
`"{}"` (the serialization of the empty Data Map), not the empty string
the claim asserts. -/
theorem json_flag_empty_data_counterexample :
    main_assemble ⟨true, false, []⟩ true [] =
      .ok ⟨[(userAgentKey, DEFAULT_UA), (contentTypeKey, TYPE_JSON)],
           .text "{}".data⟩ ∧
    Body.text "{}".data ≠ Body.text [] := by
  exact ⟨rfl, by decide⟩

/-- C6 (amended).  With `--json`, zero data items, interactive stdin and
no user-supplied Content-Type, the assembled request has Content-Type
`application/json; charset=utf-8` and its body is `jsonDumps []`, the
two-character JSON text `"{}"` — the serialization of the empty Data Map
rather than an empty body. -/
theorem json_flag_empty_data (form : Bool) (sc : List Char) :
    main_assemble ⟨true, form, []⟩ true sc =
      .ok ⟨[(userAgentKey, DEFAULT_UA), (contentTypeKey, TYPE_JSON)],
           .text (jsonDumps [])⟩ := by
  rw [main_assemble_isatty]
  rfl

/-- C7 counterexample: a user-supplied Content-Type together with a data
token, interactive stdin and no flags: the header is preserved but the
body is nevertheless JSON-serialized — the decision table's body action
still runs, so the body does not stay the (form) Data Map. -/
theorem user_content_type_body_counterexample :
    main_assemble ⟨false, false,
        [⟨"Content-Type".data, "text/plain".data, ':'⟩,
         ⟨"a".data, "b".data, '='⟩]⟩ true [] =
      .ok ⟨[(userAgentKey, DEFAULT_UA),
            ("Content-Type".data, "text/plain".data)],
           .text (jsonDumps [("a".data, "b".data)])⟩ ∧
    Body.text (jsonDumps [("a".data, "b".data)]) ≠
      Body.form [("a".data, "b".data)] := by
  exact ⟨rfl, by decide⟩

/-- C7 (amended).  A Content-Type already present in the header map
suppresses only the automatic header assignment: the header map comes out
of negotiation unchanged, but the body action of the decision table still
runs — a Data-Map body is still JSON-serialized whenever `--json` is set
or `--form` is unset and the Data Map non-empty. -/
theorem user_content_type_body_still_serialized (json form : Bool)
    (items : List KeyValue) (sc : List Char)
    (hct : ciContains (headersOf items) contentTypeKey = true) :
    main_assemble ⟨json, form, items⟩ true sc =
      .ok ⟨headersOf items,
           if json || (!form && !(dataOf items).isEmpty) then
             .text (jsonDumps (dataOf items))
           else .form (dataOf items)⟩ := by
  rw [main_assemble_isatty]
  by_cases hcond : (json || (!form && !(dataOf items).isEmpty)) = true
  · rw [if_pos hcond, if_pos hcond, if_neg (by simp [hct])]
  · rw [if_neg hcond, if_neg hcond, if_neg (by simp [hct])]

/-- Witness for C7's amended statement at the counterexample input. -/
theorem user_content_type_body_still_serialized_witness :
    main_assemble ⟨false, false,
        [⟨"Content-Type".data, "text/plain".data, ':'⟩,
         ⟨"a".data, "b".data, '='⟩]⟩ true [] =
      .ok ⟨headersOf [⟨"Content-Type".data, "text/plain".data, ':'⟩,
                      ⟨"a".data, "b".data, '='⟩],
           if false || (!false &&
               !(dataOf [⟨"Content-Type".data, "text/plain".data, ':'⟩,
                         ⟨"a".data, "b".data, '='⟩]).isEmpty) then
             .text (jsonDumps (dataOf
               [⟨"Content-Type".data, "text/plain".data, ':'⟩,
                ⟨"a".data, "b".data, '='⟩]))
           else .form (dataOf [⟨"Content-Type".data, "text/plain".data, ':'⟩,
                               ⟨"a".data, "b".data, '='⟩])⟩ :=
  user_content_type_body_still_serialized false false
    [⟨"Content-Type".data, "text/plain".data, ':'⟩,
     ⟨"a".data, "b".data, '='⟩] [] (by decide)

theorem processItems_error_of_data {items : List KeyValue}
    (h : ∃ it ∈ items, ¬ it.sep = SEP_COMMON) (hs d : Headers) :
    processItems false items hs d = .error .mixedBodySource := by
  induction items generalizing hs d with
  | nil => simp at h
  | cons it rest ih =>
    by_cases hsep : it.sep = SEP_COMMON
    · have hrest : ∃ it' ∈ rest, ¬ it'.sep = SEP_COMMON := by
        obtain ⟨it', hmem, hne⟩ := h
        rcases List.mem_cons.mp hmem with rfl | hmem
        · exact absurd hsep hne
        · exact ⟨it', hmem, hne⟩
      simp only [processItems, if_pos hsep]
      exact ih hrest _ _
    · simp [processItems, hsep]

/-- C3.  With non-interactive (piped) stdin and at least one data token,
the program fails with the mixed-body-source usage error, and the
transport is never invoked: the outcome is a usage error, not a sent
request. -/
theorem mixed_body_source (json form : Bool) (items : List KeyValue)
    (sc : List Char) (h : ∃ it ∈ items, it.sep = SEP_DATA) :
    main_send ⟨json, form, items⟩ false sc = .usageError .mixedBodySource := by
  have h' : ∃ it ∈ items, ¬ it.sep = SEP_COMMON := by
    obtain ⟨it, hmem, hsep⟩ := h
    exact ⟨it, hmem, by rw [hsep]; decide⟩
  unfold main_send main_assemble
  rw [processItems_error_of_data h']

/-- Witness for C3: `a=b` with piped stdin aborts before the transport. -/
theorem mixed_body_source_witness :
    main_send ⟨false, false, [⟨"a".data, "b".data, '='⟩]⟩ false "x".data =
      .usageError .mixedBodySource :=
  mixed_body_source false false [⟨"a".data, "b".data, '='⟩] "x".data
    ⟨⟨"a".data, "b".data, '='⟩, by decide, rfl⟩

/-- Characterization of lines 126-149 when stdin is piped and the loop
succeeded (no data token). -/
theorem main_assemble_not_isatty (json form : Bool) (items : List KeyValue)
    (sc : List Char) {hs0 d0 : Headers}
    (hpi : processItems false items [(userAgentKey, DEFAULT_UA)] [] =
      .ok (hs0, d0)) :
    main_assemble ⟨json, form, items⟩ false sc =
      (if json || (!form && !sc.isEmpty) then
        .ok ⟨if !ciContains hs0 contentTypeKey && (!sc.isEmpty || json) then
               ciSet hs0 contentTypeKey TYPE_JSON
             else hs0,
             .text sc⟩
      else
        .ok ⟨if !ciContains hs0 contentTypeKey then
               ciSet hs0 contentTypeKey TYPE_FORM
             else hs0,
             .text sc⟩) := by
  unfold main_assemble
  rw [hpi]
  by_cases hcond : (json || (!form && !sc.isEmpty)) = true <;>
    simp [hcond, Body.truthy]

/-- Every successfully assembled header map is the loop's header map,
possibly extended by the automatic Content-Type — the latter only when no
Content-Type entry was present. -/
theorem assembled_headers_cases {json form b : Bool} {items : List KeyValue}
    {sc : List Char} {hs : Headers} {body : Body}
    (h : main_assemble ⟨json, form, items⟩ b sc = .ok ⟨hs, body⟩) :
    ∃ hs0 d0,
      processItems b items [(userAgentKey, DEFAULT_UA)] [] = .ok (hs0, d0) ∧
      (hs = hs0 ∨
        (ciContains hs0 contentTypeKey = false ∧
          (hs = ciSet hs0 contentTypeKey TYPE_JSON ∨
           hs = ciSet hs0 contentTypeKey TYPE_FORM))) := by
  rcases hpi : processItems b items [(userAgentKey, DEFAULT_UA)] []
      with e | ⟨hs0, d0⟩
  · unfold main_assemble at h
    rw [hpi] at h
    cases h
  · refine ⟨hs0, d0, rfl, ?_⟩
    cases b
    · rw [main_assemble_not_isatty json form items sc hpi] at h
      by_cases hcond : (json || (!form && !sc.isEmpty)) = true
      · rw [if_pos hcond] at h
        by_cases hct : (!ciContains hs0 contentTypeKey &&
            (!sc.isEmpty || json)) = true
        · rw [if_pos hct] at h
          simp only [Except.ok.injEq, Assembled.mk.injEq] at h
          simp only [Bool.and_eq_true, Bool.not_eq_true'] at hct
          exact .inr ⟨hct.1, .inl h.1.symm⟩
        · rw [if_neg hct] at h
          simp only [Except.ok.injEq, Assembled.mk.injEq] at h
          exact .inl h.1.symm
      · rw [if_neg hcond] at h
        by_cases hct : (!ciContains hs0 contentTypeKey) = true
        · rw [if_pos hct] at h
          simp only [Except.ok.injEq, Assembled.mk.injEq] at h
          simp only [Bool.not_eq_true'] at hct
          exact .inr ⟨hct, .inr h.1.symm⟩
        · rw [if_neg hct] at h
          simp only [Except.ok.injEq, Assembled.mk.injEq] at h
          exact .inl h.1.symm
    · have hpi' := processItems_isatty items [(userAgentKey, DEFAULT_UA)] []
      rw [hpi] at hpi'
      simp only [Except.ok.injEq, Prod.mk.injEq] at hpi'
      have hhs0 : headersOf items = hs0 := by
        rw [← headersOf_eq, hpi'.1]
      rw [main_assemble_isatty, hhs0] at h
      by_cases hcond : (json || (!form && !(dataOf items).isEmpty)) = true
      · rw [if_pos hcond] at h
        by_cases hct : (!ciContains hs0 contentTypeKey) = true
        · rw [if_pos hct] at h
          simp only [Except.ok.injEq, Assembled.mk.injEq] at h
          simp only [Bool.not_eq_true'] at hct
          exact .inr ⟨hct, .inl h.1.symm⟩
        · rw [if_neg hct] at h
          simp only [Except.ok.injEq, Assembled.mk.injEq] at h
          exact .inl h.1.symm
      · rw [if_neg hcond] at h
        by_cases hct : (!ciContains hs0 contentTypeKey) = true
        · rw [if_pos hct] at h
          simp only [Except.ok.injEq, Assembled.mk.injEq] at h
          simp only [Bool.not_eq_true'] at hct
          exact .inr ⟨hct, .inr h.1.symm⟩
        · rw [if_neg hct] at h
          simp only [Except.ok.injEq, Assembled.mk.injEq] at h
          exact .inl h.1.symm

/-- C4.  A user-supplied Content-Type header token, under any casing and
not followed by another Content-Type header token, fixes the assembled
header map's Content-Type entry to its value: the automatic content-type
decision never overwrites it, data items present or not. -/
theorem user_content_type_preserved (json form stdin_isatty : Bool)
    (sc : List Char) (pre post : List KeyValue) (k v : List Char)
    (hk : lowerL k = lowerL contentTypeKey)
    (hpost : ∀ it ∈ post, it.sep = SEP_COMMON →
      ¬ lowerL it.key = lowerL contentTypeKey) :
    ∀ hs body,
      main_assemble ⟨json, form, pre ++ ⟨k, v, SEP_COMMON⟩ :: post⟩
          stdin_isatty sc = .ok ⟨hs, body⟩ →
      ciGet hs contentTypeKey = some v := by
  intro hs body h
  obtain ⟨hs0, d0, hpi, hcases⟩ := assembled_headers_cases h
  have hget0 : ciGet hs0 contentTypeKey = some v := by
    rw [processItems_ok_headers hpi, ciGet_foldl_stepH,
      List.reverse_append, List.reverse_cons, List.find?_append,
      List.find?_append]
    have hpost' : post.reverse.find? (fun it =>
        it.sep == SEP_COMMON && lowerL it.key == lowerL contentTypeKey) =
          none := by
      rw [List.find?_eq_none]
      intro it hit hpred
      simp only [Bool.and_eq_true, beq_iff_eq] at hpred
      exact hpost it (List.mem_reverse.mp hit) hpred.1 hpred.2
    rw [hpost', Option.none_or,
      List.find?_cons_of_pos _ (by simp [hk]), Option.or_some]
  rcases hcases with rfl | ⟨hfalse, _⟩
  · exact hget0
  · rw [ciContains_of_ciGet hget0] at hfalse
    cases hfalse

/-- Witness for C4: a lowercase `content-type:text/plain` token together
with a data item keeps `text/plain` as the final Content-Type. -/
theorem user_content_type_preserved_witness :
    ciGet [(userAgentKey, DEFAULT_UA),
           ("content-type".data, "text/plain".data)] contentTypeKey =
      some "text/plain".data :=
  user_content_type_preserved false false true [] []
    [⟨"a".data, "b".data, '='⟩] "content-type".data "text/plain".data
    (by decide) (by decide)
    [(userAgentKey, DEFAULT_UA), ("content-type".data, "text/plain".data)]
    (.text (jsonDumps [("a".data, "b".data)])) rfl

/-- The value of the last header token naming the User-Agent, or the
seeded default when there is none. -/
def last_user_agent (items : List KeyValue) : List Char :=
  match items.reverse.find? (fun it =>
      it.sep == SEP_COMMON && lowerL it.key == lowerL userAgentKey) with
  | some it => it.value
  | none => DEFAULT_UA

/-- C9.  Every successfully assembled request carries exactly one
User-Agent header entry: the default `HTTPie/<version>` seeded before the
user tokens are merged, replaced (not duplicated) by the value of the
last user header token whose key compares case-insensitively equal to
`User-Agent`. -/
theorem user_agent_unique (json form stdin_isatty : Bool)
    (items : List KeyValue) (sc : List Char) (hs : Headers) (body : Body)
    (h : main_assemble ⟨json, form, items⟩ stdin_isatty sc = .ok ⟨hs, body⟩) :
    countCI hs userAgentKey = 1 ∧
    ciGet hs userAgentKey = some (last_user_agent items) := by
  obtain ⟨hs0, d0, hpi, hcases⟩ := assembled_headers_cases h
  have hhs0 := processItems_ok_headers hpi
  have hcount0 : countCI hs0 userAgentKey = 1 := by
    rw [hhs0]
    exact countCI_foldl_stepH (by decide)
  have hget0 : ciGet hs0 userAgentKey = some (last_user_agent items) := by
    rw [hhs0, ciGet_foldl_stepH]
    unfold last_user_agent
    rcases hf : items.reverse.find? (fun it =>
        it.sep == SEP_COMMON && lowerL it.key == lowerL userAgentKey)
        with _ | it <;> rw [hf]
    decide
  rcases hcases with rfl | ⟨-, rfl | rfl⟩
  · exact ⟨hcount0, hget0⟩
  · exact ⟨countCI_ciSet_preserve hcount0,
      by rw [ciGet_ciSet_other (by decide)]; exact hget0⟩
  · exact ⟨countCI_ciSet_preserve hcount0,
      by rw [ciGet_ciSet_other (by decide)]; exact hget0⟩

/-- Witness for C9: a lowercase `user-agent:X` token replaces the seeded
default in place, leaving a single entry whose value is `X`. -/
theorem user_agent_unique_witness :
    countCI [("User-Agent".data, "X".data), (contentTypeKey, TYPE_FORM)]
      userAgentKey = 1 ∧
    ciGet [("User-Agent".data, "X".data), (contentTypeKey, TYPE_FORM)]
      userAgentKey =
      some (last_user_agent [⟨"user-agent".data, "X".data, ':'⟩]) :=
  user_agent_unique false false true [⟨"user-agent".data, "X".data, ':'⟩] []
    [("User-Agent".data, "X".data), (contentTypeKey, TYPE_FORM)]
    (.form []) rfl

/-! ### The response-prettifying block of `main` (lines 186-192) -/

/-- Python `str.strip()`, applied to the prettified status line at line
189. -/
def pyStrip (s : List Char) : List Char :=
  ((s.dropWhile Char.isWhitespace).reverse.dropWhile Char.isWhitespace).reverse

/-- Result of the prettifying block: the three text pieces, plus the
argument list of every call made to the Formatter's body-rendering
operation (`prettify.body`, line 192), recorded so that invocation counts
can be stated. -/
structure RenderResult where
  status_line : List Char
  headerBlock : List Char
  body : List Char
  bodyCalls : List (List Char × List Char)
deriving Repr

/-- Lines 186-192 of `main`.  `fmt_headers` and `fmt_body` are the
external Formatter collaborator (`pretty.PrettyHttp`, outside `src/`).
When `do_prettify` holds, the status line and header block are rendered
if headers are printed, and the body is rendered — in exactly one call —
precisely when the body is printed and the response headers carry a
`content-type` entry (a case-insensitive membership test in the external
header dictionary, modelled from the spec as `ciContains`). -/
def main_render (fmt_headers : List Char → List Char)
    (fmt_body : List Char → List Char → List Char)
    (do_prettify print_headers print_body : Bool)
    (status_line headers body : List Char)
    (response_headers : Headers) : RenderResult :=
  if do_prettify then
    let sh : List Char × List Char :=
      if print_headers then
        (pyStrip (fmt_headers status_line), fmt_headers headers)
      else (status_line, headers)
    if print_body && ciContains response_headers "content-type".data then
      let ct := (ciGet response_headers "content-type".data).getD []
      ⟨sh.1, sh.2, fmt_body body ct, [(body, ct)]⟩
    else
      ⟨sh.1, sh.2, body, []⟩
  else
    ⟨status_line, headers, body, []⟩

/-- C5 counterexample: with prettifying disabled (`--ugly`, or stdout not
a terminal) the Renderer still runs, the response carries a
`content-type` header, yet the Formatter's body-rendering operation is
invoked zero times — not exactly once as claimed. -/
theorem renderer_body_formatter_counterexample :
    ciContains [("Content-Type".data, "text/plain".data)]
      "content-type".data = true ∧
    (main_render (fun s => s) (fun b _ => b) false true true
        "HTTP/1.1 200 OK".data "Content-Type: text/plain".data "x".data
        [("Content-Type".data, "text/plain".data)]).bodyCalls.length = 0 :=
  ⟨by decide, rfl⟩

/-- C5 (amended).  The Formatter's body-rendering operation is invoked
exactly once — on the response body and the `content-type` value — iff
prettifying is enabled, the body is printed, and the response headers
carry a `content-type` entry; in every other case it is never invoked. -/
theorem renderer_body_formatter_calls (fmt_headers : List Char → List Char)
    (fmt_body : List Char → List Char → List Char)
    (do_prettify print_headers print_body : Bool)
    (status_line headers body : List Char) (response_headers : Headers) :
    (main_render fmt_headers fmt_body do_prettify print_headers print_body
        status_line headers body response_headers).bodyCalls =
      (if do_prettify && print_body &&
          ciContains response_headers "content-type".data then
        [(body, (ciGet response_headers "content-type".data).getD [])]
      else []) ∧
    ((main_render fmt_headers fmt_body do_prettify print_headers print_body
        status_line headers body response_headers).bodyCalls.length = 1 ↔
      do_prettify = true ∧ print_body = true ∧
        ciContains response_headers "content-type".data = true) := by
  have h1 : (main_render fmt_headers fmt_body do_prettify print_headers
      print_body status_line headers body response_headers).bodyCalls =
      (if do_prettify && print_body &&
          ciContains response_headers "content-type".data then
        [(body, (ciGet response_headers "content-type".data).getD [])]
      else []) := by
    unfold main_render
    cases do_prettify
    · simp
    · cases print_body
      · simp
      · by_cases hct :
            ciContains response_headers "content-type".data = true <;>
          simp [hct]
  refine ⟨h1, ?_⟩
  rw [h1]
  by_cases hdp : do_prettify = true <;>
    by_cases hpb : print_body = true <;>
    by_cases hct : ciContains response_headers "content-type".data = true <;>
    simp [hdp, hpb, hct]

end Httpie
